import Mathlib

/-
Verification development for the BrainRust interpreter (src/main.rs).
The Rust source is shallowly embedded: the opcode compiler, the bracket
jump-table builder and the tape-machine execution engine are translated
into executable Lean functions, and the documented properties of the
system are settled against them.  Machine integers (u8 cells, usize
indices) are modelled as Nat with explicit reduction modulo 256 where
the Rust code wraps.  Rust panics (`expect` / `unwrap`) are modelled as
an `Except.error` outcome carrying a tag naming the panic site;
`Result::Err` values of the jump-table builder are modelled as a
structured error carrying exactly the data interpolated into the
source format strings.
-/

set_option maxRecDepth 4000

/-- The opcode type of main.rs (lines 47..64).  `Add`/`Sub` carry a u8
magnitude (modelled as Nat; the compiler reduces it mod 256 exactly as
the Rust `as u8` cast does); the shift opcodes carry a usize magnitude
(modelled as Nat). -/
inductive Opcode where
  | Add (v : Nat)
  | Sub (v : Nat)
  | ShiftLeft (m : Nat)
  | ShiftRight (m : Nat)
  | Print
  | Input
  | BeginLoop
  | EndLoop
deriving DecidableEq, Repr

/-- Membership test for the eight command characters, mirroring
`"+-<>[].,".contains(c)` used by the `retain` call in compile_opcodes
(main.rs line 69). -/
def isCmd (c : Char) : Bool :=
  c == '+' || c == '-' || c == '<' || c == '>' || c == '[' || c == ']' || c == '.' || c == ','

/-- A character belonging to an arithmetic run (regex class `[-+]+`). -/
def isArith (c : Char) : Bool := c == '+' || c == '-'

/-- A character belonging to a shift run (regex class `[<>]+`). -/
def isShift (c : Char) : Bool := c == '<' || c == '>'

/-- Two adjacent characters belong to the same regex token: the regex
`[-+]+|[<>]+|\.|,|\[|\]` of main.rs line 71 merges adjacent arithmetic
characters into one token and adjacent shift characters into one token,
while the four remaining command characters always form singleton
tokens. -/
def sameRun (c d : Char) : Bool :=
  (isArith c && isArith d) || (isShift c && isShift d)

/-- Tokenization of the comment-stripped source, equivalent to
`find_iter` of the regex of main.rs line 71 on a string containing only
the eight command characters: maximal runs of `+`/`-`, maximal runs of
`<`/`>`, singletons otherwise. -/
def groupRuns : List Char → List (List Char)
  | [] => []
  | c :: rest =>
    match groupRuns rest with
    | [] => [[c]]
    | [] :: gs => [c] :: [] :: gs
    | (d :: run) :: gs =>
      if sameRun c d then (c :: d :: run) :: gs else [c] :: (d :: run) :: gs

/-- Compilation of a single regex token, mirroring the match on
`match_str[0]` in main.rs lines 73..107.  For an arithmetic token the
counts of `-` and `+` are taken over the whole token and the net
magnitude is narrowed by the `as u8` cast, i.e. reduced mod 256; for a
shift token the net usize magnitude is kept exactly.  A token whose two
symbol counts are equal emits no opcode. -/
def emitRun (r : List Char) : List Opcode :=
  match r with
  | [] => []
  | c :: _ =>
    if isArith c then
      let numMinus := (r.filter fun d => d == '-').length
      let numPlus := r.length - numMinus
      if numPlus = numMinus then []
      else if numPlus > numMinus then [Opcode.Add ((numPlus - numMinus) % 256)]
      else [Opcode.Sub ((numMinus - numPlus) % 256)]
    else if isShift c then
      let numLeft := (r.filter fun d => d == '<').length
      let numRight := r.length - numLeft
      if numRight = numLeft then []
      else if numRight > numLeft then [Opcode.ShiftRight (numRight - numLeft)]
      else [Opcode.ShiftLeft (numLeft - numRight)]
    else if c == '.' then [Opcode.Print]
    else if c == ',' then [Opcode.Input]
    else if c == '[' then [Opcode.BeginLoop]
    else if c == ']' then [Opcode.EndLoop]
    else []

/-- Concatenation of the per-token emissions, in token order, matching
the `opcodes.push` calls of the scan loop. -/
def emitAll : List (List Char) → List Opcode
  | [] => []
  | r :: rs => emitRun r ++ emitAll rs

/-- compile_opcodes of main.rs lines 66..110, on the character list of
the source: retain only the eight command characters, tokenize with the
regex, emit one opcode (or none) per token. -/
def compileList (l : List Char) : List Opcode :=
  emitAll (groupRuns (l.filter isCmd))

/-- compile_opcodes on a source string. -/
def compile_opcodes (s : String) : List Opcode :=
  compileList s.toList

/-- Structured content of the two error strings returned by
compile_jump_table (main.rs lines 28 and 38): the mismatched-close
error interpolates exactly the index `i` of the offending EndLoop, and
the unmatched-open error interpolates exactly the remaining stack
depth. -/
inductive JumpErr where
  | unmatchedClose (index : Nat)
  | unmatchedOpen (count : Nat)
deriving DecidableEq, Repr

/-- The scan loop of compile_jump_table (main.rs lines 19..39): `rem`
is the still-unprocessed tail of the opcode sequence, `i` the index of
its first element, `table` the table built so far and `stack` the stack
of pending BeginLoop indices (head = most recently pushed, matching
`Vec::push`/`Vec::pop`). -/
def jtGo : List Opcode → Nat → List Nat → List Nat → Except JumpErr (List Nat)
  | [], _, table, stack =>
    if stack.length = 0 then Except.ok table
    else Except.error (JumpErr.unmatchedOpen stack.length)
  | op :: rest, i, table, stack =>
    match op with
    | Opcode.BeginLoop => jtGo rest (i + 1) table (i :: stack)
    | Opcode.EndLoop =>
      match stack with
      | [] => Except.error (JumpErr.unmatchedClose i)
      | left :: stackRest => jtGo rest (i + 1) ((table.set left i).set i left) stackRest
    | _ => jtGo rest (i + 1) table stack

/-- compile_jump_table of main.rs lines 11..40: the table starts as
`src.len()` zeros (the push loop of lines 15..17) and the scan starts
at index 0 with an empty stack. -/
def compile_jump_table (ops : List Opcode) : Except JumpErr (List Nat) :=
  jtGo ops 0 (List.replicate ops.length 0) []

/-- The mutable state of brainf_output (main.rs lines 112..120): the
tape of u8 cells, the tape position, the program counter, the
not-yet-consumed bytes of standard input, and the bytes written to the
output sink so far. -/
structure EngineState where
  tape : List Nat
  tapePos : Nat
  pc : Nat
  stdin : List Nat
  output : List Nat
deriving DecidableEq, Repr

/-- Tags for the panic sites of one dispatch of brainf_output: the
`.ok().unwrap()` on `str::from_utf8` in the Print arm (main.rs line
142), which panics when the cell value is not a valid one-byte UTF-8
sequence, i.e. when it is 128 or more; and the `.expect` in the Input
arm (main.rs line 146), which panics when stdin yields no byte. -/
inductive RunAbort where
  | printUtf8Panic
  | inputPanic
deriving DecidableEq, Repr

/-- The current cell, `tape[tape_pos]`.  The run loop maintains
`tapePos < tape.length` (proved below), so the default is never
consulted on reachable states. -/
def cell (s : EngineState) : Nat := s.tape.getD s.tapePos 0

/-- One iteration of the while loop of brainf_output (main.rs lines
121..160): dispatch on `opcodes[program_counter]` and then advance the
program counter by one.  The loop only runs with `pc < opcodes.length`,
so the getD default is never consulted there.  Notes on fidelity:
`wrapping_add`/`wrapping_sub` on u8 become arithmetic mod 256 (the Sub
arm adds the additive complement of `v mod 256`); the insert loop of
the ShiftLeft arm prepends exactly `shift - tape_pos` zero cells; the
push loop of the ShiftRight arm appends exactly
`tape_pos + shift + 1 - tape.length` zero cells (zero of them when the
new position is already in bounds); the Print arm emits the single raw
byte when it is ASCII and otherwise reaches the from_utf8 unwrap panic;
the Input arm consumes one byte of stdin and panics when stdin is
exhausted. -/
def step (ops : List Opcode) (table : List Nat) (s : EngineState) : Except RunAbort EngineState :=
  match ops.getD s.pc Opcode.Print with
  | Opcode.Add v =>
    Except.ok (EngineState.mk (s.tape.set s.tapePos ((cell s + v) % 256)) s.tapePos (s.pc + 1) s.stdin s.output)
  | Opcode.Sub v =>
    Except.ok (EngineState.mk (s.tape.set s.tapePos ((cell s + (256 - v % 256)) % 256)) s.tapePos (s.pc + 1) s.stdin s.output)
  | Opcode.ShiftLeft m =>
    if s.tapePos < m then
      Except.ok (EngineState.mk (List.replicate (m - s.tapePos) 0 ++ s.tape) 0 (s.pc + 1) s.stdin s.output)
    else
      Except.ok (EngineState.mk s.tape (s.tapePos - m) (s.pc + 1) s.stdin s.output)
  | Opcode.ShiftRight m =>
    Except.ok (EngineState.mk (s.tape ++ List.replicate (s.tapePos + m + 1 - s.tape.length) 0) (s.tapePos + m) (s.pc + 1) s.stdin s.output)
  | Opcode.Print =>
    if cell s < 128 then
      Except.ok (EngineState.mk s.tape s.tapePos (s.pc + 1) s.stdin (s.output ++ [cell s]))
    else
      Except.error RunAbort.printUtf8Panic
  | Opcode.Input =>
    match s.stdin with
    | [] => Except.error RunAbort.inputPanic
    | b :: rest => Except.ok (EngineState.mk (s.tape.set s.tapePos b) s.tapePos (s.pc + 1) rest s.output)
  | Opcode.BeginLoop =>
    Except.ok (EngineState.mk s.tape s.tapePos ((if cell s = 0 then table.getD s.pc 0 else s.pc) + 1) s.stdin s.output)
  | Opcode.EndLoop =>
    Except.ok (EngineState.mk s.tape s.tapePos ((if cell s = 0 then s.pc else table.getD s.pc 0) + 1) s.stdin s.output)

/-- The initial state of brainf_output (main.rs lines 113..117): a one
cell tape holding zero, position 0, program counter 0, the supplied
stdin bytes, and no output yet. -/
def initState (stdin : List Nat) : EngineState :=
  EngineState.mk [0] 0 0 stdin []

/-- The bounds invariant maintained by the run loop: the tape is
non-empty and the tape position indexes into it. -/
def stateInv (s : EngineState) : Prop :=
  0 < s.tape.length ∧ s.tapePos < s.tape.length

/-- The opcode at an index (analysis helper; the junk default is never
consulted at in-bounds indices). -/
def opAt (ops : List Opcode) (j : Nat) : Opcode := ops.getD j Opcode.Print

/-- An index holding a loop boundary opcode. -/
def isBoundary (ops : List Opcode) (j : Nat) : Prop :=
  opAt ops j = Opcode.BeginLoop ∨ opAt ops j = Opcode.EndLoop

/-- Bracket-depth scan: processing the list from depth `d`, return the
final depth, or none if some EndLoop is met at depth zero. -/
def dyck : List Opcode → Nat → Option Nat
  | [], d => some d
  | Opcode.BeginLoop :: rest, d => dyck rest (d + 1)
  | Opcode.EndLoop :: rest, d => if d = 0 then none else dyck rest (d - 1)
  | _ :: rest, d => dyck rest d

/-- A well-bracketed opcode list: the depth scan from zero never dips
below zero and ends at zero. -/
def balanced (l : List Opcode) : Prop := dyck l 0 = some 0

/-- Index of the first EndLoop met at depth zero when scanning from
depth `d` (meaningful when `dyck l d = none`). -/
def firstBad : List Opcode → Nat → Nat
  | [], _ => 0
  | Opcode.BeginLoop :: rest, d => firstBad rest (d + 1) + 1
  | Opcode.EndLoop :: rest, d => if d = 0 then 0 else firstBad rest (d - 1) + 1
  | _ :: rest, d => firstBad rest d + 1

/-- The sublist of `ops` covering indices `a .. b-1`. -/
def segOf (ops : List Opcode) (a b : Nat) : List Opcode :=
  (ops.drop a).take (b - a)

/-- `a` and `b` are syntactically matching loop boundaries: `a` is a
BeginLoop, `b` an EndLoop strictly to its right, and the opcodes
strictly between them are well-bracketed. -/
def matchedPair (ops : List Opcode) (a b : Nat) : Prop :=
  a < b ∧ b < ops.length ∧ opAt ops a = Opcode.BeginLoop ∧ opAt ops b = Opcode.EndLoop ∧
    balanced (segOf ops (a + 1) b)

/-- Invariant of the jump-table scan: every loop-boundary index below
`i` that is not on the stack has already been paired in the table with
its syntactic partner, the pairing is involutive, and partners are
likewise below `i` and off the stack. -/
def goodUpTo (ops : List Opcode) (table : List Nat) (i : Nat) (stack : List Nat) : Prop :=
  ∀ j, j < i → isBoundary ops j → j ∉ stack →
    table.getD (table.getD j 0) 0 = j ∧ table.getD j 0 < i ∧ table.getD j 0 ∉ stack ∧
    (opAt ops j = Opcode.BeginLoop → matchedPair ops j (table.getD j 0)) ∧
    (opAt ops j = Opcode.EndLoop → matchedPair ops (table.getD j 0) j)

/-- Invariant of the jump-table scan: the source segments delimited by
the pending BeginLoop indices on the stack are each well-bracketed:
from just past the top of the stack up to the scan position `i`,
between consecutive stack entries, and from the start of the program up
to the bottom entry. -/
def segsOk (ops : List Opcode) : Nat → List Nat → Prop
  | i, [] => balanced (ops.take i)
  | i, t :: rest => balanced (segOf ops (t + 1) i) ∧ segsOk ops t rest

/-- Invariant of the jump-table scan: stack entries are pending
BeginLoop indices below the scan position, strictly decreasing from the
top. -/
def stackOk (ops : List Opcode) (i : Nat) (stack : List Nat) : Prop :=
  (∀ j ∈ stack, j < i ∧ opAt ops j = Opcode.BeginLoop) ∧
    List.Pairwise (fun a b => b < a) stack

/-- Boundedness of one token: an arithmetic token whose net magnitude
fits the u8 field (is below 256); non-arithmetic tokens are
unconstrained. -/
def runBounded (r : List Char) : Bool :=
  match r with
  | [] => true
  | c :: _ =>
    if isArith c then
      let numMinus := (r.filter fun d => d == '-').length
      let numPlus := r.length - numMinus
      decide (numPlus - numMinus < 256) && decide (numMinus - numPlus < 256)
    else true

/-- Every arithmetic token of the source has net magnitude below 256,
i.e. no run-length count is truncated by the `as u8` cast. -/
def arithBounded (l : List Char) : Bool :=
  (groupRuns (l.filter isCmd)).all runBounded

/-- Test for the BeginLoop opcode. -/
def isOpenB : Opcode → Bool
  | Opcode.BeginLoop => true
  | _ => false

/-- Test for the EndLoop opcode. -/
def isCloseB : Opcode → Bool
  | Opcode.EndLoop => true
  | _ => false

/-- Number of BeginLoop opcodes in a list. -/
def openCount (l : List Opcode) : Nat := (l.filter isOpenB).length

/-- Number of EndLoop opcodes in a list. -/
def closeCount (l : List Opcode) : Nat := (l.filter isCloseB).length

theorem getD_set_self {l : List Nat} {i v : Nat} (h : i < l.length) :
    (l.set i v).getD i 0 = v := by
  rw [List.getD_eq_getElem?_getD, List.getElem?_set_self (by simpa using h)]
  rfl

theorem getD_set_other {l : List Nat} {i j v : Nat} (h : i ≠ j) :
    (l.set i v).getD j 0 = l.getD j 0 := by
  rw [List.getD_eq_getElem?_getD, List.getElem?_set_ne h, List.getD_eq_getElem?_getD]

theorem dyck_append (u v : List Opcode) :
    ∀ d, dyck (u ++ v) d = (dyck u d).bind (fun e => dyck v e) := by
  induction u with
  | nil => intro d; rfl
  | cons op rest ih =>
    intro d
    cases op with
    | BeginLoop => simpa only [List.cons_append, dyck] using ih (d + 1)
    | EndLoop =>
      simp only [List.cons_append, dyck]
      by_cases hd : d = 0
      · simp [hd]
      · simp only [if_neg hd]; exact ih (d - 1)
    | Add v' => simpa only [List.cons_append, dyck] using ih d
    | Sub v' => simpa only [List.cons_append, dyck] using ih d
    | ShiftLeft m' => simpa only [List.cons_append, dyck] using ih d
    | ShiftRight m' => simpa only [List.cons_append, dyck] using ih d
    | Print => simpa only [List.cons_append, dyck] using ih d
    | Input => simpa only [List.cons_append, dyck] using ih d

theorem dyck_succ (l : List Opcode) :
    ∀ d e, dyck l d = some e → dyck l (d + 1) = some (e + 1) := by
  induction l with
  | nil => intro d e h; simp [dyck] at h; simp [dyck, h]
  | cons op rest ih =>
    intro d e h
    cases op <;> simp only [dyck] at h ⊢ <;> try { exact ih d e h }
    · exact ih (d + 1) e h
    · by_cases hd : d = 0
      · simp [hd] at h
      · simp [hd] at h ⊢
        have hd1 : d - 1 + 1 = d := Nat.succ_pred_eq_of_pos (Nat.pos_of_ne_zero hd)
        have h2 := ih (d - 1) e h
        rwa [hd1] at h2

theorem balanced_nil : balanced [] := rfl

theorem balanced_append {u v : List Opcode} (hu : balanced u) (hv : balanced v) :
    balanced (u ++ v) := by
  unfold balanced at *
  rw [dyck_append, hu]
  exact hv

theorem balanced_single {op : Opcode} (h1 : op ≠ Opcode.BeginLoop) (h2 : op ≠ Opcode.EndLoop) :
    balanced [op] := by
  cases op <;> first | rfl | exact absurd rfl h1 | exact absurd rfl h2

theorem balanced_wrap {m : List Opcode} (hm : balanced m) :
    balanced (Opcode.BeginLoop :: (m ++ [Opcode.EndLoop])) := by
  unfold balanced at *
  show dyck (m ++ [Opcode.EndLoop]) 1 = some 0
  rw [dyck_append, dyck_succ m 0 0 hm]
  rfl

theorem segOf_self (ops : List Opcode) (a : Nat) : segOf ops a a = [] := by
  simp [segOf]

theorem segOf_zero (ops : List Opcode) (b : Nat) : segOf ops 0 b = ops.take b := by
  simp [segOf]

theorem segOf_split (ops : List Opcode) {a m b : Nat} (h1 : a ≤ m) (h2 : m ≤ b) :
    segOf ops a b = segOf ops a m ++ segOf ops m b := by
  unfold segOf
  have hb : b - a = (m - a) + (b - m) := by omega
  rw [hb, List.take_add, List.drop_drop]
  have ham : a + (m - a) = m := by omega
  rw [ham]

theorem segOf_one (ops : List Opcode) {a : Nat} (h : a < ops.length) :
    segOf ops a (a + 1) = [opAt ops a] := by
  have h1 : a + 1 - a = 1 := by omega
  have h2 : opAt ops a = ops[a] := by
    simp [opAt, List.getD_eq_getElem?_getD, List.getElem?_eq_getElem h]
  rw [segOf, h1, h2, ← List.getElem_cons_drop ops a h]
  rfl

theorem segOf_extend (ops : List Opcode) {a b : Nat} (hab : a ≤ b) (hb : b < ops.length) :
    segOf ops a (b + 1) = segOf ops a b ++ [opAt ops b] := by
  rw [segOf_split ops hab (Nat.le_succ b), segOf_one ops hb]

theorem balanced_seg_wrap (ops : List Opcode) {x left i : Nat}
    (hxl : x ≤ left) (hli : left < i) (hi : i < ops.length)
    (hB : opAt ops left = Opcode.BeginLoop) (hE : opAt ops i = Opcode.EndLoop)
    (h1 : balanced (segOf ops x left)) (h2 : balanced (segOf ops (left + 1) i)) :
    balanced (segOf ops x (i + 1)) := by
  have hlen : left < ops.length := Nat.lt_trans hli hi
  have e1 : segOf ops x (i + 1) = segOf ops x left ++ segOf ops left (i + 1) :=
    segOf_split ops hxl (by omega)
  have e2 : segOf ops left (i + 1) = [opAt ops left] ++ segOf ops (left + 1) (i + 1) := by
    rw [← segOf_one ops hlen, ← segOf_split ops (Nat.le_succ left) (by omega)]
  have e3 : segOf ops (left + 1) (i + 1) = segOf ops (left + 1) i ++ [opAt ops i] :=
    segOf_extend ops (by omega) hi
  rw [e1, e2, e3, hB, hE]
  exact balanced_append h1 (by simpa using balanced_wrap h2)

theorem jtGo_none : ∀ (rem : List Opcode) (i : Nat) (table stack : List Nat),
    dyck rem stack.length = none →
    jtGo rem i table stack =
      Except.error (JumpErr.unmatchedClose (i + firstBad rem stack.length)) := by
  intro rem
  induction rem with
  | nil => intro i table stack h; simp [dyck] at h
  | cons op rest ih =>
    intro i table stack h
    cases op
    case BeginLoop =>
      have hd : dyck rest (stack.length + 1) = none := by simpa [dyck] using h
      have h2 := ih (i + 1) table (i :: stack) (by simpa using hd)
      simp only [jtGo, firstBad]
      rw [h2]
      have e : i + 1 + firstBad rest ((i :: stack).length) =
          i + (firstBad rest (stack.length + 1) + 1) := by simp; omega
      rw [e]
    case EndLoop =>
      cases stack with
      | nil => simp [jtGo, firstBad, dyck]
      | cons left srest =>
        have hd : dyck rest srest.length = none := by simpa [dyck] using h
        have h2 := ih (i + 1) ((table.set left i).set i left) srest hd
        simp only [jtGo]
        rw [h2]
        have e2 : firstBad (Opcode.EndLoop :: rest) ((left :: srest).length) =
            firstBad rest srest.length + 1 := by simp [firstBad]
        rw [e2]
        have e3 : i + 1 + firstBad rest srest.length =
            i + (firstBad rest srest.length + 1) := by omega
        rw [e3]
    all_goals {
      have hd : dyck rest stack.length = none := by simpa [dyck] using h
      have h2 := ih (i + 1) table stack hd
      simp only [jtGo, firstBad]
      rw [h2]
      have e : i + 1 + firstBad rest stack.length =
          i + (firstBad rest stack.length + 1) := by omega
      rw [e]
    }

theorem jtGo_some_pos : ∀ (rem : List Opcode) (i : Nat) (table stack : List Nat) (d : Nat),
    dyck rem stack.length = some (d + 1) →
    jtGo rem i table stack = Except.error (JumpErr.unmatchedOpen (d + 1)) := by
  intro rem
  induction rem with
  | nil =>
    intro i table stack d h
    simp [dyck] at h
    simp [jtGo, h]
  | cons op rest ih =>
    intro i table stack d h
    cases op
    case BeginLoop =>
      have hd : dyck rest (stack.length + 1) = some (d + 1) := by simpa [dyck] using h
      have h2 := ih (i + 1) table (i :: stack) d (by simpa using hd)
      simpa only [jtGo] using h2
    case EndLoop =>
      cases stack with
      | nil => simp [dyck] at h
      | cons left srest =>
        have hd : dyck rest srest.length = some (d + 1) := by simpa [dyck] using h
        have h2 := ih (i + 1) ((table.set left i).set i left) srest d hd
        simpa only [jtGo] using h2
    all_goals {
      have hd : dyck rest stack.length = some (d + 1) := by simpa [dyck] using h
      have h2 := ih (i + 1) table stack d hd
      simpa only [jtGo] using h2
    }

theorem jtGo_some_zero : ∀ (rem : List Opcode) (i : Nat) (table stack : List Nat),
    dyck rem stack.length = some 0 →
    ∃ t, jtGo rem i table stack = Except.ok t := by
  intro rem
  induction rem with
  | nil =>
    intro i table stack h
    simp [dyck] at h
    exact ⟨table, by simp [jtGo, h]⟩
  | cons op rest ih =>
    intro i table stack h
    cases op
    case BeginLoop =>
      have hd : dyck rest (stack.length + 1) = some 0 := by simpa [dyck] using h
      have h2 := ih (i + 1) table (i :: stack) (by simpa using hd)
      simpa only [jtGo] using h2
    case EndLoop =>
      cases stack with
      | nil => simp [dyck] at h
      | cons left srest =>
        have hd : dyck rest srest.length = some 0 := by simpa [dyck] using h
        have h2 := ih (i + 1) ((table.set left i).set i left) srest hd
        simpa only [jtGo] using h2
    all_goals {
      have hd : dyck rest stack.length = some 0 := by simpa [dyck] using h
      have h2 := ih (i + 1) table stack hd
      simpa only [jtGo] using h2
    }

theorem fb_end : ∀ (l : List Opcode) (d : Nat), dyck l d = none →
    opAt l (firstBad l d) = Opcode.EndLoop := by
  intro l
  induction l with
  | nil => intro d h; simp [dyck] at h
  | cons op rest ih =>
    intro d h
    cases op
    case BeginLoop =>
      have hd : dyck rest (d + 1) = none := by simpa [dyck] using h
      simpa [firstBad, opAt, List.getD_cons_succ] using ih (d + 1) hd
    case EndLoop =>
      by_cases hd : d = 0
      · simp [firstBad, hd, opAt]
      · have h2 : dyck rest (d - 1) = none := by simpa [dyck, hd] using h
        simpa [firstBad, hd, opAt, List.getD_cons_succ] using ih (d - 1) h2
    all_goals {
      have hd : dyck rest d = none := by simpa [dyck] using h
      simpa [firstBad, opAt, List.getD_cons_succ] using ih d hd
    }

theorem fb_take : ∀ (l : List Opcode) (d : Nat), dyck l d = none →
    dyck (l.take (firstBad l d)) d = some 0 := by
  intro l
  induction l with
  | nil => intro d h; simp [dyck] at h
  | cons op rest ih =>
    intro d h
    cases op
    case BeginLoop =>
      have hd : dyck rest (d + 1) = none := by simpa [dyck] using h
      simpa [firstBad, List.take_succ_cons, dyck] using ih (d + 1) hd
    case EndLoop =>
      by_cases hd : d = 0
      · simp [firstBad, hd, dyck]
      · have h2 : dyck rest (d - 1) = none := by simpa [dyck, hd] using h
        simpa [firstBad, hd, List.take_succ_cons, dyck] using ih (d - 1) h2
    all_goals {
      have hd : dyck rest d = none := by simpa [dyck] using h
      simpa [firstBad, List.take_succ_cons, dyck] using ih d hd
    }

theorem fb_leftmost : ∀ (l : List Opcode) (d : Nat), dyck l d = none →
    ∀ k, k < firstBad l d →
      ¬(opAt l k = Opcode.EndLoop ∧ dyck (l.take k) d = some 0) := by
  intro l
  induction l with
  | nil => intro d h; simp [dyck] at h
  | cons op rest ih =>
    intro d h k hk
    cases op
    case BeginLoop =>
      have hd : dyck rest (d + 1) = none := by simpa [dyck] using h
      cases k with
      | zero => intro hc; simp [opAt] at hc
      | succ k' =>
        have hk' : k' < firstBad rest (d + 1) := by
          simp [firstBad] at hk; omega
        intro hc
        refine ih (d + 1) hd k' hk' ⟨?_, ?_⟩
        · simpa [opAt, List.getD_cons_succ] using hc.1
        · simpa [List.take_succ_cons, dyck] using hc.2
    case EndLoop =>
      by_cases hd : d = 0
      · simp [firstBad, hd] at hk
      · have h2 : dyck rest (d - 1) = none := by simpa [dyck, hd] using h
        cases k with
        | zero =>
          intro hc
          have := hc.2
          simp [dyck] at this
          exact hd this
        | succ k' =>
          have hk' : k' < firstBad rest (d - 1) := by
            simp [firstBad, hd] at hk; omega
          intro hc
          refine ih (d - 1) h2 k' hk' ⟨?_, ?_⟩
          · simpa [opAt, List.getD_cons_succ] using hc.1
          · have := hc.2
            simpa [List.take_succ_cons, dyck, hd] using this
    all_goals {
      have hd : dyck rest d = none := by simpa [dyck] using h
      cases k with
      | zero => intro hc; simp [opAt] at hc
      | succ k' =>
        (have hk' : k' < firstBad rest d := by
          simp [firstBad] at hk; omega)
        intro hc
        refine ih d hd k' hk' ⟨?_, ?_⟩
        · simpa [opAt, List.getD_cons_succ] using hc.1
        · simpa [List.take_succ_cons, dyck] using hc.2
    }

theorem dyck_counts : ∀ (l : List Opcode) (d e : Nat), dyck l d = some e →
    d + openCount l = e + closeCount l := by
  intro l
  induction l with
  | nil => intro d e h; simp [dyck] at h; simp [openCount, closeCount, h]
  | cons op rest ih =>
    intro d e h
    cases op
    case BeginLoop =>
      have hd : dyck rest (d + 1) = some e := by simpa [dyck] using h
      have h2 := ih (d + 1) e hd
      simp only [openCount, closeCount] at h2 ⊢
      simp [List.filter_cons, isOpenB, isCloseB]
      omega
    case EndLoop =>
      by_cases hd : d = 0
      · simp [dyck, hd] at h
      · have h2org : dyck rest (d - 1) = some e := by simpa [dyck, hd] using h
        have h2 := ih (d - 1) e h2org
        simp only [openCount, closeCount] at h2 ⊢
        simp [List.filter_cons, isOpenB, isCloseB]
        omega
    all_goals {
      have hd : dyck rest d = some e := by simpa [dyck] using h
      have h2 := ih d e hd
      simp only [openCount, closeCount] at h2 ⊢
      simp [List.filter_cons, isOpenB, isCloseB]
      omega
    }

theorem jtGo_ok_spec (ops : List Opcode) :
    ∀ (rem : List Opcode) (i : Nat) (table stack : List Nat),
      rem = ops.drop i → i ≤ ops.length → table.length = ops.length →
      stackOk ops i stack → segsOk ops i stack → goodUpTo ops table i stack →
      ∀ t, jtGo rem i table stack = Except.ok t →
        t.length = ops.length ∧ goodUpTo ops t ops.length [] := by
  intro rem
  induction rem with
  | nil =>
    intro i table stack hrem hi hlen hstk hsegs hgood t hok
    have hin : ops.length ≤ i := by
      have h2 := congrArg List.length hrem
      simp [List.length_drop] at h2
      omega
    have hieq : i = ops.length := le_antisymm hi hin
    by_cases hs : stack.length = 0
    · have hse : stack = [] := List.length_eq_zero.mp hs
      simp [jtGo, hs] at hok
      subst hse
      constructor
      · rw [← hok]; exact hlen
      · rw [← hok, ← hieq]; exact hgood
    · simp [jtGo, hs] at hok
  | cons op rest ih =>
    intro i table stack hrem hi hlen hstk hsegs hgood t hok
    have hilt : i < ops.length := by
      have h2 := congrArg List.length hrem
      simp [List.length_drop] at h2
      omega
    rw [← List.getElem_cons_drop ops i hilt] at hrem
    injection hrem with hop hrest
    have hopAt : opAt ops i = op := by
      rw [hop]; simp [opAt, List.getD_eq_getElem?_getD, List.getElem?_eq_getElem hilt]
    cases op
    case BeginLoop =>
      simp only [jtGo] at hok
      refine ih (i + 1) table (i :: stack) hrest (by omega) hlen ?_ ?_ ?_ t hok
      · refine ⟨?_, ?_⟩
        · intro j hj
          rcases List.mem_cons.mp hj with he | hm
          · exact ⟨by omega, by rw [he]; exact hopAt⟩
          · exact ⟨by have := (hstk.1 j hm).1; omega, (hstk.1 j hm).2⟩
        · exact List.pairwise_cons.mpr ⟨fun b hb => (hstk.1 b hb).1, hstk.2⟩
      · simp only [segsOk]
        exact ⟨by rw [segOf_self]; exact balanced_nil, hsegs⟩
      · intro j hj hbj hjn
        have hjne : j ≠ i := fun he => hjn (he ▸ List.mem_cons_self i stack)
        have hji : j < i := by omega
        have hjns : j ∉ stack := fun hm => hjn (List.mem_cons_of_mem _ hm)
        obtain ⟨h1, h2, h3, h4, h5⟩ := hgood j hji hbj hjns
        refine ⟨h1, by omega, ?_, h4, h5⟩
        intro hm
        rcases List.mem_cons.mp hm with he | hm2
        · omega
        · exact h3 hm2
    case EndLoop =>
      cases stack with
      | nil => simp [jtGo] at hok
      | cons left srest =>
        have hleft := hstk.1 left (List.mem_cons_self _ _)
        have hsrest_lt : ∀ x ∈ srest, x < left := (List.pairwise_cons.mp hstk.2).1
        have hsrest_pw := (List.pairwise_cons.mp hstk.2).2
        have hlleft : left < ops.length := by have := hleft.1; omega
        simp only [jtGo] at hok
        simp only [segsOk] at hsegs
        refine ih (i + 1) ((table.set left i).set i left) srest hrest (by omega)
          (by simp [hlen]) ?_ ?_ ?_ t hok
        · refine ⟨?_, hsrest_pw⟩
          intro j hj
          have := hsrest_lt j hj
          have := hleft.1
          exact ⟨by omega, (hstk.1 j (List.mem_cons_of_mem _ hj)).2⟩
        · cases srest with
          | nil =>
            simp only [segsOk] at hsegs ⊢
            rw [← segOf_zero ops (i + 1)]
            rw [← segOf_zero ops left] at hsegs
            exact balanced_seg_wrap ops (Nat.zero_le left) hleft.1 hilt hleft.2 hopAt
              hsegs.2 hsegs.1
          | cons t' rest' =>
            simp only [segsOk] at hsegs ⊢
            have ht'l : t' < left := hsrest_lt t' (List.mem_cons_self _ _)
            exact ⟨balanced_seg_wrap ops (by omega) hleft.1 hilt hleft.2 hopAt
              hsegs.2.1 hsegs.1, hsegs.2.2⟩
        · intro j hj hbj hjn
          have hTleft : ((table.set left i).set i left).getD left 0 = i := by
            rw [getD_set_other (by omega : i ≠ left)]
            exact getD_set_self (by rw [hlen]; exact hlleft)
          have hTi : ((table.set left i).set i left).getD i 0 = left := by
            exact getD_set_self (by simp [hlen]; exact hilt)
          have hmp : matchedPair ops left i :=
            ⟨hleft.1, hilt, hleft.2, hopAt, hsegs.1⟩
          by_cases hji : j = i
          · subst hji
            refine ⟨by rw [hTi, hTleft], by rw [hTi]; omega, ?_, ?_, ?_⟩
            · rw [hTi]
              intro hm
              have := hsrest_lt left hm
              omega
            · intro hb; rw [hopAt] at hb; exact Opcode.noConfusion hb
            · intro _; rw [hTi]; exact hmp
          · by_cases hjl : j = left
            · subst hjl
              refine ⟨by rw [hTleft, hTi], by rw [hTleft]; omega, ?_, ?_, ?_⟩
              · rw [hTleft]
                intro hm
                have := hsrest_lt i hm
                have := hleft.1
                omega
              · intro _; rw [hTleft]; exact hmp
              · intro hb; rw [hleft.2] at hb; exact Opcode.noConfusion hb
            · have hjlt : j < i := by omega
              have hjnls : j ∉ left :: srest := by
                intro hm
                rcases List.mem_cons.mp hm with he | hm2
                · exact hjl he
                · exact hjn hm2
              obtain ⟨h1, h2, h3, h4, h5⟩ := hgood j hjlt hbj hjnls
              have hpl : table.getD j 0 ≠ left := by
                intro he
                exact h3 (by rw [he]; exact List.mem_cons_self _ _)
              have hpi : table.getD j 0 ≠ i := by omega
              have hTj : ((table.set left i).set i left).getD j 0 = table.getD j 0 := by
                rw [getD_set_other (by omega : i ≠ j), getD_set_other (by omega : left ≠ j)]
              have hTp : ((table.set left i).set i left).getD (table.getD j 0) 0 =
                  table.getD (table.getD j 0) 0 := by
                rw [getD_set_other (fun he => hpi he.symm),
                  getD_set_other (fun he => hpl he.symm)]
              refine ⟨by rw [hTj, hTp]; exact h1, by rw [hTj]; omega, ?_, ?_, ?_⟩
              · rw [hTj]
                intro hm
                exact h3 (List.mem_cons_of_mem _ hm)
              · intro hb; rw [hTj]; exact h4 hb
              · intro hb; rw [hTj]; exact h5 hb
    all_goals {
      simp only [jtGo] at hok
      refine ih (i + 1) table stack hrest (by omega) hlen ?_ ?_ ?_ t hok
      · refine ⟨?_, hstk.2⟩
        intro j hj
        exact ⟨by have := (hstk.1 j hj).1; omega, (hstk.1 j hj).2⟩
      · have hbal : balanced [opAt ops i] := by
          rw [hopAt]
          exact balanced_single (by simp) (by simp)
        cases stack with
        | nil =>
          simp only [segsOk] at hsegs ⊢
          rw [← segOf_zero ops (i + 1), segOf_extend ops (Nat.zero_le i) hilt,
            segOf_zero ops i]
          exact balanced_append hsegs hbal
        | cons t' rest' =>
          simp only [segsOk] at hsegs ⊢
          have ht' : t' < i := (hstk.1 t' (List.mem_cons_self _ _)).1
          refine ⟨?_, hsegs.2⟩
          rw [segOf_extend ops (by omega) hilt]
          exact balanced_append hsegs.1 hbal
      · intro j hj hbj hjn
        have hjne : j ≠ i := by
          intro he
          subst he
          rcases hbj with hb | hb <;> rw [hopAt] at hb <;> exact Opcode.noConfusion hb
        obtain ⟨h1, h2, h3, h4, h5⟩ := hgood j (by omega) hbj hjn
        exact ⟨h1, by omega, h3, h4, h5⟩
    }

theorem step_preserves_inv : ∀ (ops : List Opcode) (table : List Nat) (s s' : EngineState),
    stateInv s → step ops table s = Except.ok s' → stateInv s' := by
  intro ops table s s' hinv hstep
  cases hop : ops.getD s.pc Opcode.Print
  case Add v =>
    simp only [step, hop, Except.ok.injEq] at hstep
    subst hstep
    simpa [stateInv, List.length_set] using hinv
  case Sub v =>
    simp only [step, hop, Except.ok.injEq] at hstep
    subst hstep
    simpa [stateInv, List.length_set] using hinv
  case ShiftLeft m =>
    by_cases hm : s.tapePos < m
    · simp only [step, hop, if_pos hm, Except.ok.injEq] at hstep
      subst hstep
      obtain ⟨hp, hq⟩ := hinv
      simp only [stateInv, List.length_append, List.length_replicate]
      omega
    · simp only [step, hop, if_neg hm, Except.ok.injEq] at hstep
      subst hstep
      obtain ⟨hp, hq⟩ := hinv
      simp only [stateInv]
      omega
  case ShiftRight m =>
    simp only [step, hop, Except.ok.injEq] at hstep
    subst hstep
    obtain ⟨hp, hq⟩ := hinv
    simp only [stateInv, List.length_append, List.length_replicate]
    omega
  case Print =>
    by_cases hc : cell s < 128
    · simp only [step, hop, if_pos hc, Except.ok.injEq] at hstep
      subst hstep
      exact hinv
    · simp only [step, hop, if_neg hc] at hstep
      exact absurd hstep (by simp)
  case Input =>
    cases hin : s.stdin with
    | nil =>
      simp only [step, hop, hin] at hstep
      exact absurd hstep (by simp)
    | cons b rest =>
      simp only [step, hop, hin, Except.ok.injEq] at hstep
      subst hstep
      simpa [stateInv, List.length_set] using hinv
  case BeginLoop =>
    simp only [step, hop, Except.ok.injEq] at hstep
    subst hstep
    exact hinv
  case EndLoop =>
    simp only [step, hop, Except.ok.injEq] at hstep
    subst hstep
    exact hinv

theorem mem_emitAll : ∀ (rs : List (List Char)) (op : Opcode), op ∈ emitAll rs →
    ∃ r, r ∈ rs ∧ op ∈ emitRun r := by
  intro rs
  induction rs with
  | nil => intro op h; simp [emitAll] at h
  | cons r rs ih =>
    intro op h
    simp only [emitAll] at h
    rcases List.mem_append.mp h with h1 | h2
    · exact ⟨r, List.mem_cons_self _ _, h1⟩
    · obtain ⟨r', hr', hop⟩ := ih op h2
      exact ⟨r', List.mem_cons_of_mem _ hr', hop⟩

theorem emitRun_sl_pos : ∀ (r : List Char) (n : Nat),
    Opcode.ShiftLeft n ∈ emitRun r → 0 < n := by
  intro r n h
  cases r with
  | nil => simp [emitRun] at h
  | cons c rest =>
    simp only [emitRun] at h
    split_ifs at h <;> simp_all <;> omega

theorem emitRun_sr_pos : ∀ (r : List Char) (n : Nat),
    Opcode.ShiftRight n ∈ emitRun r → 0 < n := by
  intro r n h
  cases r with
  | nil => simp [emitRun] at h
  | cons c rest =>
    simp only [emitRun] at h
    split_ifs at h <;> simp_all <;> omega

theorem runBounded_arith {c : Char} {rest : List Char} (ha : isArith c = true)
    (hb : runBounded (c :: rest) = true) :
    (c :: rest).length - ((c :: rest).filter fun d => d == '-').length -
        ((c :: rest).filter fun d => d == '-').length < 256 ∧
      ((c :: rest).filter fun d => d == '-').length -
        ((c :: rest).length - ((c :: rest).filter fun d => d == '-').length) < 256 := by
  simp only [runBounded] at hb
  rw [if_pos ha] at hb
  simp only [Bool.and_eq_true, decide_eq_true_eq] at hb
  exact hb

theorem emitRun_add_pos : ∀ (r : List Char) (n : Nat), runBounded r = true →
    Opcode.Add n ∈ emitRun r → 0 < n ∧ n < 256 := by
  intro r n hb h
  cases r with
  | nil => simp [emitRun] at h
  | cons c rest =>
    by_cases ha : isArith c = true
    · obtain ⟨hb1, hb2⟩ := runBounded_arith ha hb
      simp only [emitRun] at h
      rw [if_pos ha] at h
      split_ifs at h with h1 h2
      · simp at h
      · simp only [List.mem_singleton, Opcode.Add.injEq] at h
        rw [h, Nat.mod_eq_of_lt hb1]
        omega
      · simp at h
    · simp only [emitRun] at h
      rw [if_neg ha] at h
      split_ifs at h <;> simp at h

theorem emitRun_sub_pos : ∀ (r : List Char) (n : Nat), runBounded r = true →
    Opcode.Sub n ∈ emitRun r → 0 < n ∧ n < 256 := by
  intro r n hb h
  cases r with
  | nil => simp [emitRun] at h
  | cons c rest =>
    by_cases ha : isArith c = true
    · obtain ⟨hb1, hb2⟩ := runBounded_arith ha hb
      simp only [emitRun] at h
      rw [if_pos ha] at h
      split_ifs at h with h1 h2
      · simp at h
      · simp at h
      · simp only [List.mem_singleton, Opcode.Sub.injEq] at h
        rw [h, Nat.mod_eq_of_lt hb2]
        omega
    · simp only [emitRun] at h
      rw [if_neg ha] at h
      split_ifs at h <;> simp at h

/-- C1: the claim that Print emits the raw byte for every cell value
0..255 fails on the code.  The cell value 128 is reachable (compiling a
source of 128 plus characters followed by a dot yields Add 128 then
Print, and one Add step produces cell 128 from the initial state), and
dispatching Print there hits the from_utf8 unwrap panic instead of
emitting the byte; an ASCII cell value is emitted verbatim as one
byte. -/
theorem c1_print_non_ascii_panics :
    compileList (List.replicate 128 '+' ++ ['.']) = [Opcode.Add 128, Opcode.Print] ∧
    compile_jump_table [Opcode.Add 128, Opcode.Print] = Except.ok [0, 0] ∧
    step [Opcode.Add 128, Opcode.Print] [0, 0] (initState []) =
      Except.ok (EngineState.mk [128] 0 1 [] []) ∧
    step [Opcode.Add 128, Opcode.Print] [0, 0] (EngineState.mk [128] 0 1 [] []) =
      Except.error RunAbort.printUtf8Panic ∧
    step [Opcode.Print] [0] (EngineState.mk [65] 0 0 [] []) =
      Except.ok (EngineState.mk [65] 0 1 [] [65]) :=
  ⟨by decide, rfl, rfl, rfl, rfl⟩

/-- C2: the claim that an exhausted input source surfaces as a returned
InputExhausted error fails on the code: brainf_output returns unit and
the Input dispatch calls expect, which aborts the process.  The
modelled dispatch of Input on an empty stdin reaches that panic, while
with a byte available it stores the byte in the current cell. -/
theorem c2_input_exhausted_panics :
    compileList [','] = [Opcode.Input] ∧
    step [Opcode.Input] [0] (initState []) = Except.error RunAbort.inputPanic ∧
    step [Opcode.Input] [0] (initState [7]) = Except.ok (EngineState.mk [7] 0 1 [] []) :=
  ⟨rfl, rfl, rfl⟩

/-- C3: the claim that an over-range run-length count surfaces as a
MagnitudeOverflow error fails on the code: compile_opcodes is total and
the `as u8` cast silently truncates, so a run of 257 plus characters
compiles to Add 1 (the count reduced mod 256) and a run of 256 compiles
to Add 0, with no error value anywhere. -/
theorem c3_magnitude_truncated :
    compileList (List.replicate 257 '+') = [Opcode.Add 1] ∧
    compileList (List.replicate 256 '+') = [Opcode.Add 0] :=
  ⟨by decide, by decide⟩

/-- C4 counterexample: the strict-positivity invariant fails as stated:
compiling a run of 256 plus characters emits Add 0, whose magnitude is
not strictly positive. -/
theorem c4_zero_magnitude_add :
    Opcode.Add 0 ∈ compileList (List.replicate 256 '+') ∧ ¬(0 < 0) :=
  ⟨by decide, by decide⟩

/-- C4 amended: shift opcodes always carry a strictly positive
magnitude; Add and Sub carry a strictly positive magnitude (below 256)
provided no arithmetic run of the source has net magnitude 256 or more;
and a maximal run with net effect zero emits no opcode at all. -/
theorem c4_positive_magnitudes :
    ∀ l : List Char,
      (∀ n, Opcode.ShiftLeft n ∈ compileList l → 0 < n) ∧
      (∀ n, Opcode.ShiftRight n ∈ compileList l → 0 < n) ∧
      (arithBounded l = true →
        (∀ n, Opcode.Add n ∈ compileList l → 0 < n ∧ n < 256) ∧
        (∀ n, Opcode.Sub n ∈ compileList l → 0 < n ∧ n < 256)) ∧
      (∀ c rest, isArith c = true →
        ((c :: rest).filter fun d => d == '-').length * 2 = (c :: rest).length →
        emitRun (c :: rest) = []) ∧
      (∀ c rest, isShift c = true →
        ((c :: rest).filter fun d => d == '<').length * 2 = (c :: rest).length →
        emitRun (c :: rest) = []) := by
  intro l
  refine ⟨?_, ?_, ?_, ?_, ?_⟩
  · intro n h
    simp only [compileList] at h
    obtain ⟨r, _, hr⟩ := mem_emitAll _ _ h
    exact emitRun_sl_pos r n hr
  · intro n h
    simp only [compileList] at h
    obtain ⟨r, _, hr⟩ := mem_emitAll _ _ h
    exact emitRun_sr_pos r n hr
  · intro hb
    simp only [arithBounded] at hb
    have hall := List.all_eq_true.mp hb
    constructor
    · intro n h
      simp only [compileList] at h
      obtain ⟨r, hrin, hr⟩ := mem_emitAll _ _ h
      exact emitRun_add_pos r n (hall r hrin) hr
    · intro n h
      simp only [compileList] at h
      obtain ⟨r, hrin, hr⟩ := mem_emitAll _ _ h
      exact emitRun_sub_pos r n (hall r hrin) hr
  · intro c rest ha hz
    have hm := List.length_filter_le (fun d => d == '-') (c :: rest)
    have he : (c :: rest).length - ((c :: rest).filter fun d => d == '-').length =
        ((c :: rest).filter fun d => d == '-').length := by omega
    simp only [emitRun]
    rw [if_pos ha, if_pos he]
  · intro c rest hs hz
    have hm := List.length_filter_le (fun d => d == '<') (c :: rest)
    have he : (c :: rest).length - ((c :: rest).filter fun d => d == '<').length =
        ((c :: rest).filter fun d => d == '<').length := by omega
    have ha : ¬(isArith c = true) := by
      cases hcc : isArith c
      · simp
      · exfalso
        simp [isArith] at hcc
        simp [isShift] at hs
        rcases hcc with h1 | h1 <;> rcases hs with h2 | h2 <;> rw [h1] at h2 <;> simp at h2
    simp only [emitRun]
    rw [if_neg ha, if_pos hs, if_pos he]

theorem c4_positive_magnitudes_witness : 0 < 2 ∧ 2 < 256 :=
  ((c4_positive_magnitudes ['+', '+']).2.2.1 (by decide)).1 2 (by decide)

/-- C5: in every successful dispatch, a BeginLoop with current cell
zero sets the program counter to the jump-table target, an EndLoop with
current cell nonzero does likewise, and every dispatch then advances
the program counter by exactly one, so a jump lands one past the
partner opcode. -/
theorem c5_jump_and_advance : ∀ (ops : List Opcode) (table : List Nat) (s s' : EngineState),
    step ops table s = Except.ok s' →
    ((ops.getD s.pc Opcode.Print = Opcode.BeginLoop ∧ cell s = 0) →
      s'.pc = table.getD s.pc 0 + 1) ∧
    ((ops.getD s.pc Opcode.Print = Opcode.EndLoop ∧ cell s ≠ 0) →
      s'.pc = table.getD s.pc 0 + 1) ∧
    (s'.pc = s.pc + 1 ∨ s'.pc = table.getD s.pc 0 + 1) := by
  intro ops table s s' hstep
  cases hop : ops.getD s.pc Opcode.Print
  case BeginLoop =>
    simp only [step, hop, Except.ok.injEq] at hstep
    subst hstep
    refine ⟨?_, ?_, ?_⟩
    · intro hc
      simp [hc.2]
    · intro hc
      exact Opcode.noConfusion hc.1
    · by_cases hc : cell s = 0
      · right; simp [hc]
      · left; simp [hc]
  case EndLoop =>
    simp only [step, hop, Except.ok.injEq] at hstep
    subst hstep
    refine ⟨?_, ?_, ?_⟩
    · intro hc
      exact Opcode.noConfusion hc.1
    · intro hc
      simp [hc.2]
    · by_cases hc : cell s = 0
      · left; simp [hc]
      · right; simp [hc]
  case Add v =>
    simp only [step, hop, Except.ok.injEq] at hstep
    subst hstep
    exact ⟨fun hc => Opcode.noConfusion hc.1,
      fun hc => Opcode.noConfusion hc.1, Or.inl rfl⟩
  case Sub v =>
    simp only [step, hop, Except.ok.injEq] at hstep
    subst hstep
    exact ⟨fun hc => Opcode.noConfusion hc.1,
      fun hc => Opcode.noConfusion hc.1, Or.inl rfl⟩
  case ShiftLeft m =>
    by_cases hm : s.tapePos < m
    · simp only [step, hop, if_pos hm, Except.ok.injEq] at hstep
      subst hstep
      exact ⟨fun hc => Opcode.noConfusion hc.1,
        fun hc => Opcode.noConfusion hc.1, Or.inl rfl⟩
    · simp only [step, hop, if_neg hm, Except.ok.injEq] at hstep
      subst hstep
      exact ⟨fun hc => Opcode.noConfusion hc.1,
        fun hc => Opcode.noConfusion hc.1, Or.inl rfl⟩
  case ShiftRight m =>
    simp only [step, hop, Except.ok.injEq] at hstep
    subst hstep
    exact ⟨fun hc => Opcode.noConfusion hc.1,
      fun hc => Opcode.noConfusion hc.1, Or.inl rfl⟩
  case Print =>
    by_cases hc : cell s < 128
    · simp only [step, hop, if_pos hc, Except.ok.injEq] at hstep
      subst hstep
      exact ⟨fun hc => Opcode.noConfusion hc.1,
        fun hc => Opcode.noConfusion hc.1, Or.inl rfl⟩
    · simp only [step, hop, if_neg hc] at hstep
      exact absurd hstep (by simp)
  case Input =>
    cases hin : s.stdin with
    | nil =>
      simp only [step, hop, hin] at hstep
      exact absurd hstep (by simp)
    | cons b rest =>
      simp only [step, hop, hin, Except.ok.injEq] at hstep
      subst hstep
      exact ⟨fun hc => Opcode.noConfusion hc.1,
        fun hc => Opcode.noConfusion hc.1, Or.inl rfl⟩

theorem c5_jump_and_advance_witness :
    (EngineState.mk [0] 0 6 [] []).pc = List.getD [5] 0 0 + 1 :=
  (c5_jump_and_advance [Opcode.BeginLoop] [5] (initState []) (EngineState.mk [0] 0 6 [] [])
    rfl).1 ⟨rfl, rfl⟩

/-- C6: for every opcode sequence whose jump table builds successfully,
the table is an involution on loop-boundary indices and maps each such
index to its syntactic partner (the partner has the complementary
opcode and the opcodes strictly between the pair are well
bracketed). -/
theorem c6_table_involution : ∀ (ops : List Opcode) (table : List Nat),
    compile_jump_table ops = Except.ok table →
    ∀ i, i < ops.length → isBoundary ops i →
      table.getD (table.getD i 0) 0 = i ∧
      (opAt ops i = Opcode.BeginLoop → matchedPair ops i (table.getD i 0)) ∧
      (opAt ops i = Opcode.EndLoop → matchedPair ops (table.getD i 0) i) := by
  intro ops table hok i hi hbi
  unfold compile_jump_table at hok
  have h := jtGo_ok_spec ops ops 0 (List.replicate ops.length 0) [] rfl (Nat.zero_le _)
    (by simp) ⟨fun j hj => absurd hj (List.not_mem_nil j), List.Pairwise.nil⟩
    (by simp only [segsOk, List.take_zero]; exact balanced_nil)
    (fun j hj _ _ => absurd hj (Nat.not_lt_zero j)) table hok
  obtain ⟨h1, h2, h3, h4, h5⟩ := h.2 i hi hbi (List.not_mem_nil i)
  exact ⟨h1, h4, h5⟩

theorem c6_table_involution_witness :
    List.getD [1, 0] (List.getD [1, 0] 0 0) 0 = 0 :=
  (c6_table_involution [Opcode.BeginLoop, Opcode.EndLoop] [1, 0] rfl 0 (by decide)
    (Or.inl rfl)).1

/-- C7: dispatching ShiftLeft m never fails: when m is at most the tape
position the position decreases by m with the tape untouched, and
otherwise exactly m minus position zero cells are prepended, the
position becomes 0, and the tape length grows by exactly that amount;
the position, a natural number, never goes negative. -/
theorem c7_shift_left_clamps : ∀ (ops : List Opcode) (table : List Nat) (s : EngineState)
    (m : Nat), ops.getD s.pc Opcode.Print = Opcode.ShiftLeft m →
    (m ≤ s.tapePos →
      step ops table s =
        Except.ok (EngineState.mk s.tape (s.tapePos - m) (s.pc + 1) s.stdin s.output)) ∧
    (s.tapePos < m →
      step ops table s =
        Except.ok (EngineState.mk (List.replicate (m - s.tapePos) 0 ++ s.tape) 0 (s.pc + 1)
          s.stdin s.output) ∧
      (List.replicate (m - s.tapePos) 0 ++ s.tape).length =
        s.tape.length + (m - s.tapePos)) := by
  intro ops table s m hop
  constructor
  · intro hle
    simp only [step, hop, if_neg (not_lt.mpr hle)]
  · intro hlt
    refine ⟨by simp only [step, hop, if_pos hlt], ?_⟩
    simp only [List.length_append, List.length_replicate]
    omega

theorem c7_shift_left_clamps_witness :
    step [Opcode.ShiftLeft 2] [] (EngineState.mk [5] 0 0 [] []) =
      Except.ok (EngineState.mk (List.replicate (2 - 0) 0 ++ [5]) 0 (0 + 1) [] []) :=
  ((c7_shift_left_clamps [Opcode.ShiftLeft 2] [] (EngineState.mk [5] 0 0 [] []) 2 rfl).2
    (by decide)).1

/-- C8: the jump-table builder fails on the first (leftmost) EndLoop
met with no pending open, reporting exactly that index; when the scan
ends with pending opens it reports exactly their count (the surplus of
BeginLoops over EndLoops); and it succeeds exactly on well-bracketed
sequences. -/
theorem c8_structural_errors : ∀ ops : List Opcode,
    (dyck ops 0 = none →
      compile_jump_table ops = Except.error (JumpErr.unmatchedClose (firstBad ops 0)) ∧
      opAt ops (firstBad ops 0) = Opcode.EndLoop ∧
      dyck (ops.take (firstBad ops 0)) 0 = some 0 ∧
      ∀ k, k < firstBad ops 0 →
        ¬(opAt ops k = Opcode.EndLoop ∧ dyck (ops.take k) 0 = some 0)) ∧
    (∀ d, dyck ops 0 = some (d + 1) →
      compile_jump_table ops = Except.error (JumpErr.unmatchedOpen (d + 1)) ∧
      openCount ops = closeCount ops + (d + 1)) ∧
    ((∃ t, compile_jump_table ops = Except.ok t) ↔ balanced ops) := by
  intro ops
  refine ⟨?_, ?_, ?_⟩
  · intro h
    have he := jtGo_none ops 0 (List.replicate ops.length 0) [] (by simpa using h)
    refine ⟨?_, fb_end ops 0 h, fb_take ops 0 h, fb_leftmost ops 0 h⟩
    unfold compile_jump_table
    simpa using he
  · intro d h
    have he := jtGo_some_pos ops 0 (List.replicate ops.length 0) [] d (by simpa using h)
    refine ⟨by unfold compile_jump_table; simpa using he, ?_⟩
    have hc := dyck_counts ops 0 (d + 1) h
    omega
  · constructor
    · rintro ⟨t, ht⟩
      unfold compile_jump_table at ht
      cases hd : dyck ops 0 with
      | none =>
        have he := jtGo_none ops 0 (List.replicate ops.length 0) [] (by simpa using hd)
        rw [he] at ht
        exact absurd ht (by simp)
      | some e =>
        cases e with
        | zero => exact hd
        | succ d =>
          have he := jtGo_some_pos ops 0 (List.replicate ops.length 0) [] d
            (by simpa using hd)
          rw [he] at ht
          exact absurd ht (by simp)
    · intro h
      unfold compile_jump_table
      exact jtGo_some_zero ops 0 (List.replicate ops.length 0) [] (by simpa using h)

theorem c8_structural_errors_witness :
    compile_jump_table [Opcode.EndLoop] =
      Except.error (JumpErr.unmatchedClose (firstBad [Opcode.EndLoop] 0)) :=
  ((c8_structural_errors [Opcode.EndLoop]).1 rfl).1

/-- C9: compiling the source "++[-][]" yields exactly the six opcodes
Add 2, BeginLoop, Sub 1, EndLoop, BeginLoop, EndLoop, whose jump table
builds successfully as [0, 3, 0, 1, 5, 4]; compiling the empty string
yields no opcodes and an empty jump table with no error. -/
theorem c9_concrete_compile :
    compile_opcodes "++[-][]" = [Opcode.Add 2, Opcode.BeginLoop, Opcode.Sub 1,
      Opcode.EndLoop, Opcode.BeginLoop, Opcode.EndLoop] ∧
    compile_jump_table (compile_opcodes "++[-][]") = Except.ok [0, 3, 0, 1, 5, 4] ∧
    compile_opcodes "" = [] ∧
    compile_jump_table (compile_opcodes "") = Except.ok [] :=
  ⟨by decide, rfl, rfl, rfl⟩

/-- C10: the execution invariant that the tape is non-empty and the
tape position indexes into it holds at the initial state and is
preserved by every successful dispatch, so every tape access of the run
loop is in bounds; the ShiftRight dispatch re-establishes it by
appending zero cells. -/
theorem c10_tape_bounds :
    (∀ stdin : List Nat, stateInv (initState stdin)) ∧
    (∀ (ops : List Opcode) (table : List Nat) (s s' : EngineState),
      stateInv s → step ops table s = Except.ok s' → stateInv s') :=
  ⟨fun _ => by simp [stateInv, initState], step_preserves_inv⟩

theorem c10_tape_bounds_witness :
    stateInv (EngineState.mk [65] 0 1 [] [65]) :=
  c10_tape_bounds.2 [Opcode.Print] [] (EngineState.mk [65] 0 0 [] [])
    (EngineState.mk [65] 0 1 [] [65]) ⟨by decide, by decide⟩ rfl
